import Mathlib

/-
Verification of the scoring / tie-break core of `app.py` (RIASEC career quiz).

Embedding conventions:
- Python dicts whose key order matters (the RIASEC tally passed to the stable
  `sorted`) are association lists `List (Char × Int)` in insertion order.
- `sorted(..., key=..., reverse=True)` is a stable sort; it is embedded as
  `List.insertionSort` with the corresponding total preorder, which is stable
  in the same sense, hence extensionally identical.
- Python `set` results are `Finset String`.
- The question banks (`questions/main_questions.py`, `tie_breaker_questions.py`)
  are data imported by `app.py`; the embedding parameterizes over them.
- All call sites of `calculate_scores` in `app.py` pass
  `use_text_enrichment=False` (the default), so the embedding covers that path;
  the disabled text-enrichment branch is not modelled.
-/

/-- The six RIASEC category letters, in the insertion order used by
`initialize_session` and `calculate_scores` (`{'R':0,'I':0,'A':0,'S':0,'E':0,'C':0}`). -/
def RIASEC_KEYS : List Char := ['R', 'I', 'A', 'S', 'E', 'C']

/-- The twelve current aptitude names (`NEW_APTITUDES` in `app.py`). -/
def NEW_APTITUDES : List String :=
  ["Logical Reasoning", "Mechanical", "Creative", "Verbal Communication",
   "Numerical", "Social/Helping", "Leadership/Persuasion", "Digital/Computer",
   "Organizing/Structuring", "Writing/Expression", "Scientific", "Spatial/Design"]

/-- Table `OLD_TO_NEW_APT_MAP` from `app.py`: legacy aptitude key to list of new keys. -/
def OLD_TO_NEW_APT_MAP : List (String × List String) :=
  [("Analytical", ["Logical Reasoning"]),
   ("Technical", ["Mechanical"]),
   ("Spatial", ["Spatial/Design"]),
   ("Verbal", ["Verbal Communication"]),
   ("Creative", ["Creative"])]

/-- Python `a,b = sorted([x,y]); f"{a}-{b}"`: the canonical (letter-sorted) pair string. -/
def pairStr (x y : Char) : String :=
  if x ≤ y then String.mk [x, '-', y] else String.mk [y, '-', x]

/-- Embeds `sorted(riasec_scores.items(), key=lambda x: x[1], reverse=True)`:
stable sort of the tally items, descending by score. -/
def sortByScoreDesc (tally : List (Char × Int)) : List (Char × Int) :=
  tally.insertionSort (fun a b => b.2 ≤ a.2)

/-- Entry `scores[0]` after the sort (the guard in `identify_tie_pairs` ensures the
index is in range wherever this is used). -/
def firstScore (tally : List (Char × Int)) : Int :=
  ((sortByScoreDesc tally).map Prod.snd).getD 0 0

/-- Entry `scores[1]` after the sort. -/
def secondScore (tally : List (Char × Int)) : Int :=
  ((sortByScoreDesc tally).map Prod.snd).getD 1 0

/-- Entry `scores[2]` after the sort. -/
def thirdScore (tally : List (Char × Int)) : Int :=
  ((sortByScoreDesc tally).map Prod.snd).getD 2 0

/-- Entry `codes_order[0]` after the sort. -/
def firstCode (tally : List (Char × Int)) : Char :=
  ((sortByScoreDesc tally).map Prod.fst).getD 0 'R'

/-- Entry `codes_order[1]` after the sort. -/
def secondCode (tally : List (Char × Int)) : Char :=
  ((sortByScoreDesc tally).map Prod.fst).getD 1 'R'

/-- Entry `codes_order[2]` after the sort. -/
def thirdCode (tally : List (Char × Int)) : Char :=
  ((sortByScoreDesc tally).map Prod.fst).getD 2 'R'

/-- List `third_place_codes = [c for c,s in sorted_by_score if s == third_score]`. -/
def thirdPlaceCodes (tally : List (Char × Int)) : List Char :=
  ((sortByScoreDesc tally).filter (fun x => decide (x.2 = thirdScore tally))).map Prod.fst

/-- The nested `for i / for j in range(i+1, ...)` loop of `identify_tie_pairs`:
all canonical pair strings over positions `i < j` of the list. -/
def pairCombos : List Char → List String
  | [] => []
  | c :: rest => rest.map (fun d => pairStr c d) ++ pairCombos rest

/-- Embeds `identify_tie_pairs(riasec_scores, delta)` from `app.py`. -/
def identify_tie_pairs (riasec_scores : List (Char × Int)) (delta : Int) : Finset String :=
  if (sortByScoreDesc riasec_scores).length < 3 then ∅
  else
    let pairs1 : Finset String :=
      if firstScore riasec_scores - secondScore riasec_scores < delta then
        {pairStr (firstCode riasec_scores) (secondCode riasec_scores)}
      else ∅
    let pairs2 : Finset String :=
      if secondScore riasec_scores - thirdScore riasec_scores < delta then
        insert (pairStr (secondCode riasec_scores) (thirdCode riasec_scores)) pairs1
      else pairs1
    if 1 < (thirdPlaceCodes riasec_scores).length then
      pairs2 ∪ (pairCombos (thirdPlaceCodes riasec_scores)).toFinset
    else pairs2

/-- The sort-key relation of `resolve_riasec_code`:
`key=lambda x: (-x[1], x[0])` compares tuples lexicographically. -/
def lexKeyRel (a b : Char × Int) : Prop :=
  toLex ((-a.2, a.1) : Int × Char) ≤ toLex ((-b.2, b.1) : Int × Char)

instance : DecidableRel lexKeyRel := fun a b =>
  inferInstanceAs (Decidable (toLex ((-a.2, a.1) : Int × Char) ≤ toLex ((-b.2, b.1) : Int × Char)))

/-- Embeds `resolve_riasec_code(riasec_scores)` from `app.py`:
`sorted(riasec_scores.items(), key=lambda x: (-x[1], x[0]))`, then join the
top-3 letters. -/
def resolve_riasec_code (riasec_scores : List (Char × Int)) : String :=
  String.mk (((riasec_scores.insertionSort lexKeyRel).take 3).map Prod.fst)

/-- Spec 4.4, stated in the spec's own words: sort all categories by
descending score with ascending letter as tie-break, concatenate the top 3. -/
def specResolveCode (riasec_scores : List (Char × Int)) : String :=
  let ordered := riasec_scores.insertionSort
    (fun a b => b.2 < a.2 ∨ (a.2 = b.2 ∧ a.1 ≤ b.1))
  String.mk ((ordered.take 3).map Prod.fst)

/-- Spec 4.2 steps 1-7, stated in the spec's own words: rank by descending
score; add the letter-sorted top pair when `score1 - score2 < delta`; add the
letter-sorted second pair when `score2 - score3 < delta`; when more than one
category's score equals `score3`, add every letter-sorted pairwise combination
among all categories whose score equals `score3`. -/
def specTiePairs (tally : List (Char × Int)) (delta : Int) : Finset String :=
  if (sortByScoreDesc tally).length < 3 then ∅
  else
    let pairs1 : Finset String :=
      if firstScore tally - secondScore tally < delta then
        {pairStr (firstCode tally) (secondCode tally)}
      else ∅
    let pairs2 : Finset String :=
      if secondScore tally - thirdScore tally < delta then
        insert (pairStr (secondCode tally) (thirdCode tally)) pairs1
      else pairs1
    if 1 < (thirdPlaceCodes tally).length then
      pairs2 ∪ Finset.image (fun p => pairStr p.1 p.2)
        (Finset.filter (fun p => p.1 ≠ p.2)
          ((thirdPlaceCodes tally).toFinset ×ˢ (thirdPlaceCodes tally).toFinset))
    else pairs2

/-- One option of a question: `{'riasec': ..., 'aptitudes': {...}}`.
`riasec` may be absent (`option.get('riasec')` then yields `None`). -/
structure QOption where
  riasec : Option Char := none
  aptitudes : List (String × Int) := []
deriving DecidableEq

/-- One question of either bank: `{'number': ..., 'options': {...}}`; tie-breaker
questions additionally carry a `pair` field (`q.get('pair')`). -/
structure Question where
  number : Int
  options : List (String × QOption) := []
  pair : Option String := none
deriving DecidableEq

/-- Digit-string accumulator for `pyInt?`; fails on any non-digit. -/
def parseDigits : List Char → Nat → Option Nat
  | [], acc => some acc
  | c :: cs, acc => if c.isDigit then parseDigits cs (acc * 10 + (c.toNat - 48)) else none

/-- Embeds `int(qnum_key)` under the `try/except` of `calculate_scores`: optional sign
followed by at least one digit parses; anything else is `none`
(Python's extra tolerance for surrounding whitespace and underscores is not
exercised by the app, which writes keys as `str(qnum)`). -/
def pyInt? (s : String) : Option Int :=
  match s.data with
  | [] => none
  | '-' :: [] => none
  | '-' :: c :: cs => (parseDigits (c :: cs) 0).map (fun n => -(n : Int))
  | '+' :: [] => none
  | '+' :: c :: cs => (parseDigits (c :: cs) 0).map (fun n => (n : Int))
  | cs => (parseDigits cs 0).map (fun n => (n : Int))

/-- Question resolution in `calculate_scores`: look in `QUESTIONS` when
`qnum <= len(QUESTIONS)`, else in `TIE_BREAKER_QUESTIONS`
(`next((q for q in ... if q['number'] == qnum), None)`). -/
def resolveQuestion (QUESTIONS TIE_BREAKER_QUESTIONS : List Question) (qnum : Int) :
    Option Question :=
  if qnum ≤ (QUESTIONS.length : Int) then
    QUESTIONS.find? (fun q => decide (q.number = qnum))
  else
    TIE_BREAKER_QUESTIONS.find? (fun q => decide (q.number = qnum))

/-- Embeds `aptitude_scores[name] += w` on the tally-as-function. -/
def aptAdd (f : String → Int) (name : String) (w : Int) : String → Int :=
  fun s => if s = name then f s + w else f s

/-- The body of the aptitude loop in `calculate_scores` for one
`(old_key, score)` item: fan a legacy key out to every mapped new key, add a
current key directly, ignore an unknown key. -/
def applyAptEntry (f : String → Int) (key : String) (w : Int) : String → Int :=
  match OLD_TO_NEW_APT_MAP.find? (fun kv => decide (kv.1 = key)) with
  | some kv => kv.2.foldl (fun g nk => aptAdd g nk w) f
  | none => if key ∈ NEW_APTITUDES then aptAdd f key w else f

/-- Embeds `if riasec_code in riasec_scores: riasec_scores[riasec_code] += 1`
(the dict's key set is always exactly the six letters). -/
def riasecBump (r : Char → Int) (code : Option Char) : Char → Int :=
  match code with
  | some c => if c ∈ RIASEC_KEYS then (fun d => if d = c then r d + 1 else r d) else r
  | none => r

/-- The body of the answer loop of `calculate_scores` for one
`(qnum_key, selected)` item of the Answer Record. -/
def scoreStep (QUESTIONS TIE_BREAKER_QUESTIONS : List Question)
    (st : (Char → Int) × (String → Int)) (entry : String × String) :
    (Char → Int) × (String → Int) :=
  match pyInt? entry.1 with
  | none => st
  | some qnum =>
    match resolveQuestion QUESTIONS TIE_BREAKER_QUESTIONS qnum with
    | none => st
    | some q =>
      match q.options.find? (fun o => decide (o.1 = entry.2)) with
      | none => st
      | some lo =>
        (riasecBump st.1 lo.2.riasec,
         lo.2.aptitudes.foldl (fun g kv => applyAptEntry g kv.1 kv.2) st.2)

/-- Embeds `calculate_scores()` from `app.py` (default mode, i.e. without the disabled
text-enrichment branch), with the two banks and the Answer Record as explicit
inputs. Tallies are total functions; keys outside the fixed key sets are never
touched and stay `0`. -/
def calculate_scores (QUESTIONS TIE_BREAKER_QUESTIONS : List Question)
    (answers : List (String × String)) : (Char → Int) × (String → Int) :=
  answers.foldl (scoreStep QUESTIONS TIE_BREAKER_QUESTIONS) (fun _ => 0, fun _ => 0)

/-- An Answer Record entry "carried a RIASEC code": it parses, resolves to a
question, its label is among that question's options, and the chosen option's
`riasec` field is one of the six letters. -/
def answerHasCode (QUESTIONS TIE_BREAKER_QUESTIONS : List Question)
    (entry : String × String) : Bool :=
  match pyInt? entry.1 with
  | none => false
  | some qnum =>
    match resolveQuestion QUESTIONS TIE_BREAKER_QUESTIONS qnum with
    | none => false
    | some q =>
      match q.options.find? (fun o => decide (o.1 = entry.2)) with
      | none => false
      | some lo =>
        match lo.2.riasec with
        | some c => decide (c ∈ RIASEC_KEYS)
        | none => false

/-- The sum of the six RIASEC tally values. -/
def riasecTotal (r : Char → Int) : Int := (RIASEC_KEYS.map r).sum

/-- Modelled from the spec: the question-bank data files
(`questions/main_questions.py`, `questions/tie_breaker_questions.py`) are not
part of the scored source; per the spec's data model the tallies are "only
ever incremented", i.e. every per-option aptitude weight in a bank is
non-negative. -/
def BankWeightsNonneg (bank : List Question) : Prop :=
  ∀ q ∈ bank, ∀ lo ∈ q.options, ∀ kv ∈ lo.2.aptitudes, 0 ≤ kv.2

/-- Embeds `get_questions_for_pairs(pairs, already_asked)` from `app.py`; the Python
`set` argument `pairs` is embedded as a list in its iteration order. -/
def get_questions_for_pairs (TIE_BREAKER_QUESTIONS : List Question)
    (pairs : List String) (already_asked : List String) : List Question :=
  pairs.foldl (fun new_qs pair =>
    if pair ∈ already_asked then new_qs
    else
      let matched := TIE_BREAKER_QUESTIONS.filter (fun q => decide (q.pair = some pair))
      if matched.isEmpty then new_qs else new_qs ++ matched.take 2) []

/-- The contribution of a single pair string inside the loop of
`get_questions_for_pairs`: nothing when already asked or unmatched, else up to
2 matching tie-breaker questions in bank order. -/
def pairContribution (TIE_BREAKER_QUESTIONS : List Question)
    (already_asked : List String) (pair : String) : List Question :=
  if pair ∈ already_asked then []
  else (TIE_BREAKER_QUESTIONS.filter (fun q => decide (q.pair = some pair))).take 2

/- ----------------------------------------------------------------- -/
/- Theorems                                                           -/
/- ----------------------------------------------------------------- -/

theorem pairStr_comm (x y : Char) : pairStr x y = pairStr y x := by
  unfold pairStr
  rcases le_or_lt x y with h | h
  · rcases eq_or_lt_of_le h with rfl | h2
    · simp
    · rw [if_pos h, if_neg (not_le.mpr h2)]
  · rw [if_neg (not_le.mpr h), if_pos h.le]

theorem mem_pairCombos {a b : Char} (hab : a ≠ b) :
    ∀ {l : List Char}, a ∈ l → b ∈ l → pairStr a b ∈ pairCombos l := by
  intro l
  induction l with
  | nil => simp
  | cons c rest ih =>
    intro ha hb
    simp only [pairCombos, List.mem_append, List.mem_map]
    rcases List.mem_cons.mp ha with rfl | ha2
    · have hb2 : b ∈ rest := by
        rcases List.mem_cons.mp hb with rfl | h
        · exact absurd rfl hab
        · exact h
      exact Or.inl ⟨b, hb2, rfl⟩
    · rcases List.mem_cons.mp hb with rfl | hb2
      · exact Or.inl ⟨a, ha2, pairStr_comm b a⟩
      · exact Or.inr (ih ha2 hb2)

theorem of_mem_pairCombos :
    ∀ {l : List Char}, l.Nodup → ∀ {p : String}, p ∈ pairCombos l →
      ∃ a, a ∈ l ∧ ∃ b, b ∈ l ∧ a ≠ b ∧ p = pairStr a b := by
  intro l
  induction l with
  | nil => simp [pairCombos]
  | cons c rest ih =>
    intro hnd p hp
    have hc : c ∉ rest := (List.nodup_cons.mp hnd).1
    rcases List.mem_append.mp hp with h | h
    · obtain ⟨d, hd, rfl⟩ := List.mem_map.mp h
      exact ⟨c, List.mem_cons_self c rest, d, List.mem_cons_of_mem c hd,
        fun hcd => hc (hcd ▸ hd), rfl⟩
    · obtain ⟨a, ha, b, hb, hab, rfl⟩ := ih (List.nodup_cons.mp hnd).2 h
      exact ⟨a, List.mem_cons_of_mem c ha, b, List.mem_cons_of_mem c hb, hab, rfl⟩

theorem pairCombos_toFinset {l : List Char} (hl : l.Nodup) :
    (pairCombos l).toFinset =
      Finset.image (fun p => pairStr p.1 p.2)
        (Finset.filter (fun p => p.1 ≠ p.2) (l.toFinset ×ˢ l.toFinset)) := by
  ext s
  simp only [List.mem_toFinset, Finset.mem_image, Finset.mem_filter, Finset.mem_product]
  constructor
  · intro hs
    obtain ⟨a, ha, b, hb, hab, rfl⟩ := of_mem_pairCombos hl hs
    exact ⟨(a, b), ⟨⟨ha, hb⟩, hab⟩, rfl⟩
  · rintro ⟨⟨a, b⟩, ⟨⟨ha, hb⟩, hab⟩, rfl⟩
    exact mem_pairCombos hab ha hb

theorem thirdPlaceCodes_nodup {tally : List (Char × Int)}
    (h : (tally.map Prod.fst).Perm RIASEC_KEYS) : (thirdPlaceCodes tally).Nodup := by
  have hperm : (sortByScoreDesc tally).Perm tally := List.perm_insertionSort _ _
  have h1 : ((sortByScoreDesc tally).map Prod.fst).Nodup := by
    have h2 : ((sortByScoreDesc tally).map Prod.fst).Perm RIASEC_KEYS :=
      (hperm.map Prod.fst).trans h
    exact h2.symm.nodup (by decide)
  have hsub : List.Sublist (thirdPlaceCodes tally) ((sortByScoreDesc tally).map Prod.fst) :=
    (List.filter_sublist _).map Prod.fst
  exact h1.sublist hsub

/-- C1: `identify_tie_pairs` computes exactly the set described by spec 4.2:
top pair when `score1 - score2 < delta`, second pair when
`score2 - score3 < delta`, and every letter-sorted pairwise combination among
all categories whose score equals the third-ranked score when more than one
does. -/
theorem identify_tie_pairs_spec (tally : List (Char × Int)) (delta : Int)
    (h : (tally.map Prod.fst).Perm RIASEC_KEYS) :
    identify_tie_pairs tally delta = specTiePairs tally delta := by
  unfold identify_tie_pairs specTiePairs
  rw [pairCombos_toFinset (thirdPlaceCodes_nodup h)]

theorem identify_tie_pairs_spec_witness :
    identify_tie_pairs [('A',4),('C',9),('E',5),('I',1),('R',3),('S',1)] 1 =
      specTiePairs [('A',4),('C',9),('E',5),('I',1),('R',3),('S',1)] 1 :=
  identify_tie_pairs_spec _ 1 (by decide)

/-- C8: on the tally `{R:5,I:5,A:4,S:2,E:1,C:0}` with `delta = 1` the tie pairs
are exactly `{"I-R"}` and the resolved code is `"IRA"`. -/
theorem scenario_close_tie :
    identify_tie_pairs [('R',5),('I',5),('A',4),('S',2),('E',1),('C',0)] 1 =
        ({"I-R"} : Finset String) ∧
      resolve_riasec_code [('R',5),('I',5),('A',4),('S',2),('E',1),('C',0)] = "IRA" := by
  decide

/-- C9: on the all-zero tally with `delta = 1` the result is non-empty and
contains every letter-sorted pair among all six categories (all six share the
third-place score 0). -/
theorem scenario_all_zero :
    (pairCombos RIASEC_KEYS).toFinset ⊆
        identify_tie_pairs [('R',0),('I',0),('A',0),('S',0),('E',0),('C',0)] 1 ∧
      (identify_tie_pairs [('R',0),('I',0),('A',0),('S',0),('E',0),('C',0)] 1).Nonempty := by
  decide

/-- C10: the multi-way third-place-tie rule fires for every `delta`, including
zero and negative values: whenever more than one category's score equals the
third-ranked score, every letter-sorted pair among the tied categories is in
the result. -/
theorem third_place_rule_delta_free (tally : List (Char × Int)) (delta : Int) (a b : Char)
    (hlen : ¬ (sortByScoreDesc tally).length < 3)
    (htie : 1 < (thirdPlaceCodes tally).length)
    (ha : a ∈ thirdPlaceCodes tally) (hb : b ∈ thirdPlaceCodes tally) (hab : a ≠ b) :
    pairStr a b ∈ identify_tie_pairs tally delta := by
  simp only [identify_tie_pairs]
  rw [if_neg hlen, if_pos htie]
  exact Finset.mem_union_right _ (List.mem_toFinset.mpr (mem_pairCombos hab ha hb))

theorem third_place_rule_delta_free_witness :
    pairStr 'R' 'I' ∈ identify_tie_pairs [('R',0),('I',0),('A',0),('S',0),('E',0),('C',0)] 0 :=
  third_place_rule_delta_free _ 0 'R' 'I' (by decide) (by decide) (by decide) (by decide)
    (by decide)

/-- C3 counterexample: two tallies with the same category-to-score
associations in different key orders (`I` and `A` swapped, both at score 4)
produce different pair sets at `delta = 2`, because the stable sort leaves
whichever tied category was inserted first in second place. -/
theorem identify_tie_pairs_order_dependent :
    ([('R',5),('I',4),('A',4),('S',0),('E',0),('C',0)] : List (Char × Int)).Perm
        [('R',5),('A',4),('I',4),('S',0),('E',0),('C',0)] ∧
      identify_tie_pairs [('R',5),('I',4),('A',4),('S',0),('E',0),('C',0)] 2 ≠
        identify_tie_pairs [('R',5),('A',4),('I',4),('S',0),('E',0),('C',0)] 2 := by
  decide

theorem sortByScoreDesc_perm_congr {t1 t2 : List (Char × Int)} (hp : t1.Perm t2)
    (hnd : (t1.map Prod.snd).Nodup) : sortByScoreDesc t1 = sortByScoreDesc t2 := by
  haveI : IsTotal (Char × Int) (fun a b => b.2 ≤ a.2) := ⟨fun a b => le_total b.2 a.2⟩
  haveI : IsTrans (Char × Int) (fun a b => b.2 ≤ a.2) :=
    ⟨fun a b c hab hbc => le_trans hbc hab⟩
  have hstrict : ∀ t : List (Char × Int), (t.map Prod.snd).Nodup →
      List.Sorted (fun a b : Char × Int => b.2 < a.2) (sortByScoreDesc t) := by
    intro t hndt
    have hs : List.Sorted (fun a b : Char × Int => b.2 ≤ a.2) (sortByScoreDesc t) :=
      List.sorted_insertionSort _ t
    have hne : List.Pairwise (fun a b : Char × Int => a.2 ≠ b.2) (sortByScoreDesc t) := by
      have hnd2 : ((sortByScoreDesc t).map Prod.snd).Nodup :=
        (((List.perm_insertionSort _ t).map Prod.snd).nodup_iff).mpr hndt
      rw [List.Nodup, List.pairwise_map] at hnd2
      exact hnd2
    exact (hs.and hne).imp (fun h => lt_of_le_of_ne h.1 h.2.symm)
  haveI : IsAntisymm (Char × Int) (fun a b : Char × Int => b.2 < a.2) :=
    ⟨fun a b h1 h2 => absurd (h1.trans h2) (lt_irrefl _)⟩
  have hnd2 : (t2.map Prod.snd).Nodup := ((hp.map Prod.snd).nodup_iff).mp hnd
  exact List.eq_of_perm_of_sorted
    ((List.perm_insertionSort _ t1).trans (hp.trans (List.perm_insertionSort _ t2).symm))
    (hstrict t1 hnd) (hstrict t2 hnd2)

/-- C3 amended: permuting the tally's key order never changes the result
whenever the six scores are pairwise distinct (the counterexample shows the
unrestricted claim fails when scores tie at the 1/2 boundary). -/
theorem identify_tie_pairs_perm_invariant (t1 t2 : List (Char × Int)) (delta : Int)
    (hp : t1.Perm t2) (hnd : (t1.map Prod.snd).Nodup) :
    identify_tie_pairs t1 delta = identify_tie_pairs t2 delta := by
  have h := sortByScoreDesc_perm_congr hp hnd
  simp only [identify_tie_pairs, firstScore, secondScore, thirdScore, firstCode, secondCode,
    thirdCode, thirdPlaceCodes, h]

theorem identify_tie_pairs_perm_invariant_witness :
    identify_tie_pairs [('R',5),('I',4),('A',3),('S',2),('E',1),('C',0)] 1 =
      identify_tie_pairs [('C',0),('E',1),('S',2),('A',3),('I',4),('R',5)] 1 :=
  identify_tie_pairs_perm_invariant _ _ 1 (by decide) (by decide)

theorem orderedInsert_rel_congr {α : Type} {r s : α → α → Prop}
    [DecidableRel r] [DecidableRel s] (hrs : ∀ a b, r a b ↔ s a b) (a : α) :
    ∀ l : List α, l.orderedInsert r a = l.orderedInsert s a := by
  intro l
  induction l with
  | nil => rfl
  | cons b l ih =>
    simp only [List.orderedInsert]
    by_cases h : r a b
    · rw [if_pos h, if_pos ((hrs a b).mp h)]
    · rw [if_neg h, if_neg (fun hs => h ((hrs a b).mpr hs)), ih]

theorem insertionSort_rel_congr {α : Type} {r s : α → α → Prop}
    [DecidableRel r] [DecidableRel s] (hrs : ∀ a b, r a b ↔ s a b) (l : List α) :
    l.insertionSort r = l.insertionSort s := by
  induction l with
  | nil => rfl
  | cons a l ih => simp only [List.insertionSort, ih, orderedInsert_rel_congr hrs]

theorem lexKeyRel_iff (a b : Char × Int) :
    lexKeyRel a b ↔ (b.2 < a.2 ∨ (a.2 = b.2 ∧ a.1 ≤ b.1)) := by
  unfold lexKeyRel
  rw [Prod.Lex.le_iff]
  constructor
  · rintro (h | ⟨h1, h2⟩)
    · exact Or.inl (by omega)
    · exact Or.inr ⟨by omega, h2⟩
  · rintro (h | ⟨h1, h2⟩)
    · exact Or.inl (by omega)
    · exact Or.inr ⟨by omega, h2⟩

/-- C4: `resolve_riasec_code` concatenates the first three letters after
sorting all categories by descending score with ascending letter as tie-break
(spec 4.4); in particular, when exactly two categories tie for the highest
score the alphabetically smaller of the two letters comes first. -/
theorem resolve_riasec_code_spec :
    (∀ tally : List (Char × Int), resolve_riasec_code tally = specResolveCode tally) ∧
    (∀ (tally : List (Char × Int)) (a b : Char) (s : Int),
      (a, s) ∈ tally → (b, s) ∈ tally → a < b →
      (∀ x ∈ tally, x = (a, s) ∨ x = (b, s) ∨ x.2 < s) →
      (resolve_riasec_code tally).toList.head? = some a) := by
  constructor
  · intro tally
    unfold resolve_riasec_code specResolveCode
    rw [insertionSort_rel_congr lexKeyRel_iff]
  · intro tally a b s ha hb hab hall
    haveI : IsTotal (Char × Int) lexKeyRel := ⟨fun x y => le_total _ _⟩
    haveI : IsTrans (Char × Int) lexKeyRel := ⟨fun x y z h1 h2 => le_trans h1 h2⟩
    have hsorted : List.Sorted lexKeyRel (tally.insertionSort lexKeyRel) :=
      List.sorted_insertionSort _ tally
    have hmema : (a, s) ∈ tally.insertionSort lexKeyRel :=
      (List.mem_insertionSort _).mpr ha
    obtain ⟨h, t, hht⟩ : ∃ h t, tally.insertionSort lexKeyRel = h :: t := by
      cases hcase : tally.insertionSort lexKeyRel with
      | nil => rw [hcase] at hmema; cases hmema
      | cons h t => exact ⟨h, t, rfl⟩
    have hhead : h = (a, s) := by
      have hmemh : h ∈ tally := (List.mem_insertionSort _).mp (hht ▸ List.mem_cons_self h t)
      have hle : lexKeyRel h (a, s) := by
        rw [hht] at hmema
        rcases List.mem_cons.mp hmema with heq | hmem2
        · rw [← heq, lexKeyRel_iff]
          exact Or.inr ⟨rfl, le_refl a⟩
        · rw [hht] at hsorted
          exact List.rel_of_sorted_cons hsorted _ hmem2
      rcases hall h hmemh with h1 | h1 | h1
      · exact h1
      · exfalso
        rw [h1, lexKeyRel_iff] at hle
        rcases hle with h2 | ⟨_, h2⟩
        · exact lt_irrefl _ h2
        · exact absurd hab (not_lt.mpr h2)
      · exfalso
        rw [lexKeyRel_iff] at hle
        rcases hle with h2 | ⟨h2, _⟩
        · exact lt_irrefl _ (h1.trans h2)
        · rw [h2] at h1; exact lt_irrefl _ h1
    have : resolve_riasec_code tally = String.mk (((h :: t).take 3).map Prod.fst) := by
      unfold resolve_riasec_code
      rw [hht]
    rw [this, hhead]
    rfl

theorem resolve_riasec_code_spec_witness :
    (resolve_riasec_code [('R',5),('I',5),('A',4),('S',2),('E',1),('C',0)]).toList.head? =
      some 'I' :=
  resolve_riasec_code_spec.2 _ 'I' 'R' 5 (by decide) (by decide) (by decide) (by decide)

theorem map_sum_update_mem {keys : List Char} (hnd : keys.Nodup) {c : Char}
    (hc : c ∈ keys) (r : Char → Int) :
    (keys.map (fun d => if d = c then r d + 1 else r d)).sum = (keys.map r).sum + 1 := by
  induction keys with
  | nil => cases hc
  | cons k ks ih =>
    rcases List.mem_cons.mp hc with rfl | hc2
    · have hk : c ∉ ks := (List.nodup_cons.mp hnd).1
      simp only [List.map_cons, List.sum_cons, if_pos rfl]
      have heq : ks.map (fun d => if d = c then r d + 1 else r d) = ks.map r := by
        apply List.map_congr_left
        intro d hd
        rw [if_neg (by rintro rfl; exact hk hd)]
      rw [heq]
      simp
      ring
    · have hk : ¬ k = c := by
        rintro rfl
        exact (List.nodup_cons.mp hnd).1 hc2
      simp only [List.map_cons, List.sum_cons, if_neg hk,
        ih (List.nodup_cons.mp hnd).2 hc2]
      ring

theorem scoreStep_total (QS TBQ : List Question) (st : (Char → Int) × (String → Int))
    (e : String × String) :
    riasecTotal (scoreStep QS TBQ st e).1 =
      riasecTotal st.1 + (if answerHasCode QS TBQ e then 1 else 0) := by
  unfold scoreStep answerHasCode
  cases hp : pyInt? e.1 with
  | none => simp
  | some qnum =>
    cases hq : resolveQuestion QS TBQ qnum with
    | none => simp [hq]
    | some q =>
      cases ho : q.options.find? (fun o => decide (o.1 = e.2)) with
      | none => simp [hq, ho]
      | some lo =>
        simp only [hq, ho]
        cases hr : lo.2.riasec with
        | none => simp [hr, riasecBump]
        | some c =>
          by_cases h : c ∈ RIASEC_KEYS
          · simp only [hr, riasecBump, if_pos h, riasecTotal]
            rw [map_sum_update_mem (by decide) h st.1]
            simp [h]
          · simp [hr, riasecBump, h, riasecTotal]

theorem foldl_scoreStep_total (QS TBQ : List Question) :
    ∀ (answers : List (String × String)) (st : (Char → Int) × (String → Int)),
      riasecTotal ((answers.foldl (scoreStep QS TBQ) st).1) =
        riasecTotal st.1 + (answers.countP (answerHasCode QS TBQ) : Int) := by
  intro answers
  induction answers with
  | nil => simp
  | cons e rest ih =>
    intro st
    rw [List.foldl_cons, ih, scoreStep_total, List.countP_cons, Nat.cast_add]
    rw [Nat.cast_ite]
    push_cast
    ring

theorem aptAdd_nonneg {f : String → Int} {w : Int} (hf : ∀ s, 0 ≤ f s) (hw : 0 ≤ w)
    (name : String) : ∀ s, 0 ≤ aptAdd f name w s := by
  intro s
  unfold aptAdd
  split
  · exact add_nonneg (hf s) hw
  · exact hf s

theorem foldl_aptAdd_nonneg {w : Int} (hw : 0 ≤ w) :
    ∀ (names : List String) {f : String → Int}, (∀ s, 0 ≤ f s) →
      ∀ s, 0 ≤ (names.foldl (fun g nk => aptAdd g nk w) f) s := by
  intro names
  induction names with
  | nil => intro f hf s; exact hf s
  | cons n ns ih =>
    intro f hf s
    exact ih (aptAdd_nonneg hf hw n) s

theorem applyAptEntry_nonneg {f : String → Int} (hf : ∀ s, 0 ≤ f s) {w : Int}
    (hw : 0 ≤ w) (key : String) : ∀ s, 0 ≤ applyAptEntry f key w s := by
  unfold applyAptEntry
  cases OLD_TO_NEW_APT_MAP.find? (fun kv => decide (kv.1 = key)) with
  | some kv => exact foldl_aptAdd_nonneg hw kv.2 hf
  | none =>
    split
    · exact aptAdd_nonneg hf hw key
    · exact hf

theorem foldl_applyAptEntry_nonneg :
    ∀ (entries : List (String × Int)) {f : String → Int}, (∀ s, 0 ≤ f s) →
      (∀ kv ∈ entries, 0 ≤ kv.2) →
      ∀ s, 0 ≤ (entries.foldl (fun g kv => applyAptEntry g kv.1 kv.2) f) s := by
  intro entries
  induction entries with
  | nil => intro f hf _ s; exact hf s
  | cons kv kvs ih =>
    intro f hf hws s
    exact ih (applyAptEntry_nonneg hf (hws kv (List.mem_cons_self kv kvs)) kv.1)
      (fun x hx => hws x (List.mem_cons_of_mem kv hx)) s

theorem riasecBump_nonneg {r : Char → Int} (hr : ∀ c, 0 ≤ r c) (code : Option Char) :
    ∀ c, 0 ≤ riasecBump r code c := by
  intro c
  cases code with
  | none => exact hr c
  | some k =>
    simp only [riasecBump]
    split
    · show 0 ≤ if c = k then r c + 1 else r c
      split
      · exact add_nonneg (hr c) zero_le_one
      · exact hr c
    · exact hr c

theorem resolveQuestion_mem {QS TBQ : List Question} {n : Int} {q : Question}
    (h : resolveQuestion QS TBQ n = some q) : q ∈ QS ∨ q ∈ TBQ := by
  unfold resolveQuestion at h
  split at h
  · exact Or.inl (List.mem_of_find?_eq_some h)
  · exact Or.inr (List.mem_of_find?_eq_some h)

theorem scoreStep_nonneg {QS TBQ : List Question}
    (hQ : BankWeightsNonneg QS) (hT : BankWeightsNonneg TBQ)
    {st : (Char → Int) × (String → Int)}
    (h1 : ∀ c, 0 ≤ st.1 c) (h2 : ∀ s, 0 ≤ st.2 s) (e : String × String) :
    (∀ c, 0 ≤ (scoreStep QS TBQ st e).1 c) ∧ (∀ s, 0 ≤ (scoreStep QS TBQ st e).2 s) := by
  unfold scoreStep
  cases hp : pyInt? e.1 with
  | none => exact ⟨h1, h2⟩
  | some qnum =>
    cases hq : resolveQuestion QS TBQ qnum with
    | none =>
      simp only [hq]
      exact ⟨h1, h2⟩
    | some q =>
      cases ho : q.options.find? (fun o => decide (o.1 = e.2)) with
      | none =>
        simp only [hq, ho]
        exact ⟨h1, h2⟩
      | some lo =>
        simp only [hq, ho]
        have hqmem : q ∈ QS ∨ q ∈ TBQ := resolveQuestion_mem hq
        have hlomem : lo ∈ q.options := List.mem_of_find?_eq_some ho
        have hws : ∀ kv ∈ lo.2.aptitudes, 0 ≤ kv.2 := by
          rcases hqmem with hm | hm
          · exact hQ q hm lo hlomem
          · exact hT q hm lo hlomem
        exact ⟨riasecBump_nonneg h1 lo.2.riasec,
          foldl_applyAptEntry_nonneg lo.2.aptitudes h2 hws⟩

theorem foldl_scoreStep_nonneg {QS TBQ : List Question}
    (hQ : BankWeightsNonneg QS) (hT : BankWeightsNonneg TBQ) :
    ∀ (answers : List (String × String)) (st : (Char → Int) × (String → Int)),
      (∀ c, 0 ≤ st.1 c) → (∀ s, 0 ≤ st.2 s) →
      (∀ c, 0 ≤ (answers.foldl (scoreStep QS TBQ) st).1 c) ∧
        (∀ s, 0 ≤ (answers.foldl (scoreStep QS TBQ) st).2 s) := by
  intro answers
  induction answers with
  | nil => intro st h1 h2; exact ⟨h1, h2⟩
  | cons e rest ih =>
    intro st h1 h2
    obtain ⟨h1s, h2s⟩ := scoreStep_nonneg hQ hT h1 h2 e
    exact ih _ h1s h2s

/-- C2: for every Answer Record (and any banks with the spec's non-negative
weights), every RIASEC and aptitude tally value returned by `calculate_scores`
is non-negative, and the six RIASEC values sum to the number of answered
questions whose selected option carried a RIASEC code. -/
theorem calculate_scores_invariants (QS TBQ : List Question)
    (answers : List (String × String))
    (hQ : BankWeightsNonneg QS) (hT : BankWeightsNonneg TBQ) :
    (∀ c, 0 ≤ (calculate_scores QS TBQ answers).1 c) ∧
    (∀ s, 0 ≤ (calculate_scores QS TBQ answers).2 s) ∧
    riasecTotal (calculate_scores QS TBQ answers).1 =
      (answers.countP (answerHasCode QS TBQ) : Int) := by
  unfold calculate_scores
  obtain ⟨h1, h2⟩ := foldl_scoreStep_nonneg hQ hT answers
    (fun _ => 0, fun _ => 0) (fun _ => le_refl 0) (fun _ => le_refl 0)
  refine ⟨h1, h2, ?_⟩
  rw [foldl_scoreStep_total]
  simp [riasecTotal, RIASEC_KEYS]

theorem calculate_scores_invariants_witness :
    riasecTotal (calculate_scores
        [⟨1, [("A", ⟨some 'R', [("Analytical", 2)]⟩)], none⟩] [] [("1", "A")]).1 =
      (([("1", "A")] : List (String × String)).countP
        (answerHasCode [⟨1, [("A", ⟨some 'R', [("Analytical", 2)]⟩)], none⟩] []) : Int) :=
  (calculate_scores_invariants _ _ _
    (by unfold BankWeightsNonneg; decide) (by unfold BankWeightsNonneg; decide)).2.2

/-- C5: an Answer Record entry whose question number resolves to no question
in the bank selected by the size rule, or whose chosen label is not among the
resolved question's options, is skipped: the tallies are exactly what they
would be without that entry (and the embedding is total, so no exception can
be raised). -/
theorem calculate_scores_skips_bad_entry (QS TBQ : List Question)
    (pre post : List (String × String)) (e : String × String)
    (h : (∃ n, pyInt? e.1 = some n ∧ resolveQuestion QS TBQ n = none) ∨
         (∃ n q, pyInt? e.1 = some n ∧ resolveQuestion QS TBQ n = some q ∧
            q.options.find? (fun o => decide (o.1 = e.2)) = none)) :
    calculate_scores QS TBQ (pre ++ e :: post) = calculate_scores QS TBQ (pre ++ post) := by
  unfold calculate_scores
  rw [List.foldl_append, List.foldl_append, List.foldl_cons]
  have hstep : ∀ st : (Char → Int) × (String → Int), scoreStep QS TBQ st e = st := by
    intro st
    unfold scoreStep
    rcases h with ⟨n, hn, hr⟩ | ⟨n, q, hn, hr, ho⟩
    · simp only [hn, hr]
    · simp only [hn, hr, ho]
  rw [hstep]

theorem calculate_scores_skips_bad_entry_witness :
    calculate_scores [⟨1, [("A", ⟨some 'R', []⟩)], none⟩] [] [("1", "A"), ("99", "A")] =
      calculate_scores [⟨1, [("A", ⟨some 'R', []⟩)], none⟩] [] [("1", "A")] :=
  calculate_scores_skips_bad_entry _ _ [("1", "A")] [] ("99", "A")
    (Or.inl ⟨99, by decide, by decide⟩)

/-- C7: for one `(aptitude key, weight)` entry of a chosen option: a
recognized legacy key fans the weight out to every new-taxonomy name it maps
to; otherwise a current-taxonomy key receives the weight directly; any other
key changes nothing (and no error is possible). -/
theorem applyAptEntry_cases (f : String → Int) (key : String) (w : Int) :
    (∀ news, (key, news) ∈ OLD_TO_NEW_APT_MAP →
      ∀ name, applyAptEntry f key w name = if name ∈ news then f name + w else f name) ∧
    (key ∉ OLD_TO_NEW_APT_MAP.map Prod.fst → key ∈ NEW_APTITUDES →
      applyAptEntry f key w = aptAdd f key w) ∧
    (key ∉ OLD_TO_NEW_APT_MAP.map Prod.fst → key ∉ NEW_APTITUDES →
      applyAptEntry f key w = f) := by
  refine ⟨?_, ?_, ?_⟩
  · intro news hmem name
    fin_cases hmem <;>
      simp [applyAptEntry, OLD_TO_NEW_APT_MAP, aptAdd, List.find?]
  · intro hnot hmem
    have hf : OLD_TO_NEW_APT_MAP.find? (fun kv => decide (kv.1 = key)) = none := by
      rw [List.find?_eq_none]
      intro kv hkv
      simp only [decide_eq_true_eq]
      intro hk
      exact hnot (hk ▸ List.mem_map_of_mem Prod.fst hkv)
    unfold applyAptEntry
    rw [hf]
    simp only [if_pos hmem]
  · intro hnot hmem
    have hf : OLD_TO_NEW_APT_MAP.find? (fun kv => decide (kv.1 = key)) = none := by
      rw [List.find?_eq_none]
      intro kv hkv
      simp only [decide_eq_true_eq]
      intro hk
      exact hnot (hk ▸ List.mem_map_of_mem Prod.fst hkv)
    unfold applyAptEntry
    rw [hf]
    simp only [if_neg hmem]

theorem applyAptEntry_cases_witness :
    applyAptEntry (fun _ => 0) "Analytical" 3 "Logical Reasoning" = 3 := by
  have h := (applyAptEntry_cases (fun _ => 0) "Analytical" 3).1
    ["Logical Reasoning"] (by decide) "Logical Reasoning"
  simpa using h

theorem get_questions_for_pairs_eq_flatten (TBQ : List Question) (already : List String) :
    ∀ (ps : List String) (acc : List Question),
      ps.foldl (fun new_qs pair =>
        if pair ∈ already then new_qs
        else
          let matched := TBQ.filter (fun q => decide (q.pair = some pair))
          if matched.isEmpty then new_qs else new_qs ++ matched.take 2) acc =
      acc ++ (ps.map (pairContribution TBQ already)).flatten := by
  intro ps
  induction ps with
  | nil => intro acc; simp
  | cons p ps ih =>
    intro acc
    rw [List.foldl_cons, ih, List.map_cons, List.flatten_cons]
    have hone : (if p ∈ already then acc
        else
          let matched := TBQ.filter (fun q => decide (q.pair = some p))
          if matched.isEmpty then acc else acc ++ matched.take 2) =
        acc ++ pairContribution TBQ already p := by
      unfold pairContribution
      by_cases hal : p ∈ already
      · rw [if_pos hal, if_pos hal, List.append_nil]
      · rw [if_neg hal, if_neg hal]
        by_cases hemp : (TBQ.filter (fun q => decide (q.pair = some p))).isEmpty
        · rw [if_pos hemp, List.isEmpty_iff.mp hemp]
          simp
        · rw [if_neg hemp]
    rw [hone, List.append_assoc]

theorem gqfp_unfold (TBQ : List Question) (ps already : List String) :
    get_questions_for_pairs TBQ ps already =
      (ps.map (pairContribution TBQ already)).flatten := by
  unfold get_questions_for_pairs
  rw [get_questions_for_pairs_eq_flatten]
  simp

theorem mem_pairContribution {TBQ : List Question} {already : List String} {p : String}
    {q : Question} (hq : q ∈ pairContribution TBQ already p) :
    p ∉ already ∧ q.pair = some p := by
  unfold pairContribution at hq
  by_cases hal : p ∈ already
  · rw [if_pos hal] at hq
    cases hq
  · rw [if_neg hal] at hq
    have hmem := List.mem_of_mem_take hq
    have := List.of_mem_filter hmem
    exact ⟨hal, of_decide_eq_true this⟩

theorem pairContribution_filter_self {TBQ : List Question} {already : List String}
    {p : String} (hal : p ∉ already) :
    (pairContribution TBQ already p).filter (fun q => decide (q.pair = some p)) =
      (TBQ.filter (fun q => decide (q.pair = some p))).take 2 := by
  have hself : (pairContribution TBQ already p).filter
      (fun q => decide (q.pair = some p)) = pairContribution TBQ already p := by
    rw [List.filter_eq_self]
    intro q hq
    exact decide_eq_true (mem_pairContribution hq).2
  rw [hself]
  unfold pairContribution
  rw [if_neg hal]

theorem pairContribution_filter_ne {TBQ : List Question} {already : List String}
    {p0 p : String} (hne : p0 ≠ p) :
    (pairContribution TBQ already p0).filter (fun q => decide (q.pair = some p)) = [] := by
  rw [List.filter_eq_nil_iff]
  intro q hq
  have h2 := (mem_pairContribution hq).2
  simp [h2, hne]

/-- C6: `get_questions_for_pairs` never returns a question for a pair in
`already_asked` (so a repeated call with the same already-asked set never
re-assigns such a pair), and each pair not in `already_asked` contributes
exactly the first (up to) 2 tie-breaker-bank questions whose `pair` field
equals it, in bank order; pairs without matching questions contribute
nothing. -/
theorem get_questions_for_pairs_spec (TBQ : List Question) (ps already : List String)
    (hnd : ps.Nodup) :
    (∀ q ∈ get_questions_for_pairs TBQ ps already, ∀ p, q.pair = some p → p ∉ already) ∧
    (∀ p ∈ ps, p ∉ already →
      (get_questions_for_pairs TBQ ps already).filter (fun q => decide (q.pair = some p)) =
        (TBQ.filter (fun q => decide (q.pair = some p))).take 2) := by
  rw [gqfp_unfold]
  constructor
  · intro q hq p hp
    rw [List.mem_flatten] at hq
    obtain ⟨l, hl, hql⟩ := hq
    obtain ⟨p0, _, rfl⟩ := List.mem_map.mp hl
    obtain ⟨hal0, hpair0⟩ := mem_pairContribution hql
    rw [hpair0] at hp
    cases hp
    exact hal0
  · intro p hpps hpal
    induction ps with
    | nil => cases hpps
    | cons p0 ps ih =>
      have hnd0 := List.nodup_cons.mp hnd
      rw [List.map_cons, List.flatten_cons, List.filter_append]
      rcases List.mem_cons.mp hpps with rfl | hps2
      · rw [pairContribution_filter_self hpal]
        have hrest : ((ps.map (pairContribution TBQ already)).flatten).filter
            (fun q => decide (q.pair = some p)) = [] := by
          rw [List.filter_eq_nil_iff]
          intro q hq
          rw [List.mem_flatten] at hq
          obtain ⟨l, hl, hql⟩ := hq
          obtain ⟨p1, hp1, rfl⟩ := List.mem_map.mp hl
          have h2 := (mem_pairContribution hql).2
          have hne : p1 ≠ p := by
            rintro rfl
            exact hnd0.1 hp1
          simp [h2, hne]
        rw [hrest, List.append_nil]
      · have hne : p0 ≠ p := by
          rintro rfl
          exact hnd0.1 hps2
        rw [pairContribution_filter_ne hne, List.nil_append]
        exact ih hnd0.2 hps2

theorem get_questions_for_pairs_spec_witness :
    (get_questions_for_pairs
        [⟨11, [], some "A-I"⟩, ⟨12, [], some "A-I"⟩, ⟨13, [], some "A-I"⟩,
         ⟨14, [], some "E-R"⟩] ["A-I", "E-R"] ["E-R"]).filter
        (fun q => decide (q.pair = some "A-I")) =
      (([⟨11, [], some "A-I"⟩, ⟨12, [], some "A-I"⟩, ⟨13, [], some "A-I"⟩,
         ⟨14, [], some "E-R"⟩] : List Question).filter
        (fun q => decide (q.pair = some "A-I"))).take 2 :=
  (get_questions_for_pairs_spec _ _ _ (by decide)).2 "A-I" (by decide) (by decide)
